import Mathlib

/-!
Verification development for the aelist interactive launcher
(src/aelist.c).  The definitions below are a shallow embedding of the
data model and the algorithms of that file: the executable record
(struct __exe_t), the per-keystroke filter/selection engine (search),
the PATH tokenizer (parsepath, built on strtok), the path-list setup
in main, the byte-size formatter (bytesfmt) and the record
construction in init.  C strings are lists of characters, the record
array is a list, the selection pointer (the global named last, which
may be NULL and which search both repoints and writes through) is an
optional index into that list, and the engine returns none exactly
when the C code would dereference a null selection pointer.
-/

namespace Aelist

/-- Executable record, from struct __exe_t: a name, a path and a size.
In the C struct name and path are fixed 2048-byte buffers; here they
are the character lists actually stored. -/
structure Exe where
  name : List Char
  path : List Char
  siz : Nat
deriving Repr, DecidableEq

/-- Test whether the first list is a prefix of the second, written as
the character-by-character comparison that strncmp-style scanning
performs. -/
def isPre : List Char → List Char → Bool
  | [], _ => true
  | _ :: _, [] => false
  | a :: as, b :: bs => if a = b then isPre as bs else false

/-- Embedding of strstr(hay, sub) as a Bool: scan the haystack left to
right and report whether sub starts at some position.  Matches the C
convention that the empty needle is found in every string. -/
def strstrB : List Char → List Char → Bool
  | hay, sub =>
    if isPre sub hay then true
    else
      match hay with
      | [] => false
      | _ :: t => strstrB t sub

/-- Embedding of the match-counting loop at the top of search
(lines 178-181): sum starts at evsiz and is decremented once for every
record whose name does not contain the query. -/
def searchSum (ev : List Exe) (q : List Char) : Nat :=
  ev.foldr (fun e acc => if strstrB e.name q then acc else acc - 1) ev.length

/-- Embedding of the selection loop of search (lines 183-203).
Arguments mirror the C locals: fuel bounds the traversal (the wrapper
passes the list length, and the index n increases by one per step just
as in the for loop), ev is the record array, last the selection
pointer (none = NULL), n the loop index, fi the rendered-match counter
(starting at 1), s the exact-match-seen flag.  The loop body runs while
n < evsiz and fi <= nprompt.  An exact name match assigns the current
record through the selection pointer (in C: *last = ev[n], a struct
copy into whatever slot last points at) - with a null pointer that is
the failure the result none records - and sets s; any record containing
the query as a substring additionally repoints last to it when s is
still unset, and increments fi. -/
def searchLoop (q : List Char) (np : Nat) :
    Nat → List Exe → Option Nat → Nat → Nat → Bool →
    Option (List Exe × Option Nat)
  | 0, ev, last, _, _, _ => some (ev, last)
  | fuel + 1, ev, last, n, fi, s =>
    if h : n < ev.length ∧ fi ≤ np then
      if (ev.get ⟨n, h.1⟩).name = q then
        match last with
        | none => none
        | some m =>
            searchLoop q np fuel (ev.set m (ev.get ⟨n, h.1⟩)) (some m)
              (n + 1) (fi + 1) true
      else if strstrB (ev.get ⟨n, h.1⟩).name q then
        searchLoop q np fuel ev (if s then last else some n) (n + 1) (fi + 1) s
      else
        searchLoop q np fuel ev last (n + 1) fi s
    else
      some (ev, last)

/-- Embedding of search itself: the match count over the pre-state
array, then the selection traversal from index 0 with fi = 1 and the
exact-match flag clear.  The result is none exactly when the traversal
dereferences a null selection pointer. -/
def search (ev : List Exe) (q : List Char) (last : Option Nat) (np : Nat) :
    Option (Nat × List Exe × Option Nat) :=
  match searchLoop q np ev.length ev last 0 1 false with
  | none => none
  | some (ev2, l2) => some (searchSum ev q, ev2, l2)

/-- Specification-side description of the selection the loop computes
when no record name equals the query: walk the records from index n
with a budget b of further matches the traversal may still process
(b = nprompt + 1 - fi), repointing the tentative selection to every
record whose name contains the query.  The result is the index of the
last substring match among the first min(nprompt, matchCount) matches,
or the incoming selection when there is none. -/
def lastMatchFrom (ev : List Exe) (q : List Char) :
    Nat → Nat → Nat → Option Nat → Option Nat
  | 0, _, _, l0 => l0
  | fuel + 1, n, b, l0 =>
    if h : n < ev.length ∧ 0 < b then
      if strstrB (ev.get ⟨n, h.1⟩).name q then
        lastMatchFrom ev q fuel (n + 1) (b - 1) (some n)
      else
        lastMatchFrom ev q fuel (n + 1) b l0
    else l0

/-- Selection computed by a full run of the loop when no exact match
exists: start at index 0 with the full display budget. -/
def lastMatch (ev : List Exe) (q : List Char) (np : Nat) (l0 : Option Nat) :
    Option Nat :=
  lastMatchFrom ev q ev.length 0 np l0

/-- Embedding of the strtok(p, ":") tokenisation used by parsepath
(lines 153-160): tokens are the maximal nonempty runs of
non-delimiter characters, so consecutive, leading and trailing
delimiters yield no token.  The accumulator holds the reversed
characters of the token being built. -/
def tokAux (d : Char) : List Char → List Char → List (List Char)
  | [], cur => if cur = [] then [] else [cur.reverse]
  | c :: rest, cur =>
    if c = d then
      if cur = [] then tokAux d rest [] else cur.reverse :: tokAux d rest []
    else
      tokAux d rest (c :: cur)

/-- Token list strtok produces for a whole string. -/
def strtokAll (d : Char) (s : List Char) : List (List Char) :=
  tokAux d s []

/-- Embedding of the storing loop of parsepath: starting from path
count psiz, each token is stored and the count incremented; as soon as
the count reaches MAXPATHS = 512 the function returns, dropping the
remaining tokens.  Note that the token is stored before the bound is
checked, so a call entered with psiz >= 512 still stores one token. -/
def parsepathTokens : Nat → List (List Char) → List (List Char)
  | _, [] => []
  | psiz, t :: rest =>
    t :: (if psiz + 1 ≥ 512 then [] else parsepathTokens (psiz + 1) rest)

/-- Path entries parsepath appends when called with psiz existing
paths and the given PATH environment string. -/
def parsepath (psiz : Nat) (env : List Char) : List (List Char) :=
  parsepathTokens psiz (strtokAll ':' env)

/-- Embedding of the path-list setup in main (lines 405-413): psiz
becomes the number of explicit path arguments; when it is zero or the
P flag is set, parsepath appends entries from the PATH environment
variable; afterwards the program terminates fatally (error) when
psiz exceeds MAXPATHS = 512, and otherwise proceeds (ok) with the
final count. -/
def mainPaths (nargs : Nat) (env : List Char) (Pflag : Bool) :
    Except Unit Nat :=
  let psiz := nargs
  let psiz2 :=
    if psiz = 0 || Pflag then psiz + (parsepath psiz env).length else psiz
  if psiz2 > 512 then Except.error () else Except.ok psiz2

/-- Unit names of bytesfmt (line 94). -/
def units : List String := ["B", "KiB", "MiB", "GiB", "TiB", "PiB", "EiB"]

/-- Embedding of the unit-selection loop of bytesfmt (line 98):
starting from unit index u = 0, divide while the value is at least
1024 and u < 6 (the fuel argument is 6 - u).  The running double
c = n / 1024 ^ u is tracked exactly: every division of a binary
floating-point number by 1024 is exact, so the comparison
c >= 1024 is the integer comparison 1024 ^ (u + 1) <= n for all
inputs whose initial conversion to double is exact (all inputs the
spec constrains are powers of two or small, hence exact). -/
def bytesUnitAux (n : Nat) : Nat → Nat → Nat
  | 0, u => u
  | fuel + 1, u => if 1024 ^ (u + 1) ≤ n then bytesUnitAux n fuel (u + 1) else u

/-- Unit index bytesfmt selects for n bytes. -/
def bytesUnit (n : Nat) : Nat := bytesUnitAux n 6 0

/-- Value n / 1024 ^ u in hundredths, rounded to nearest as the %.2f
conversion of snprintf does (no tie arises at any input considered
here, so the tie-breaking mode is immaterial): the floor of
100 * n / 1024 ^ u + 1 / 2. -/
def cent (n u : Nat) : Nat := (200 * n + 1024 ^ u) / (2 * 1024 ^ u)

/-- Two-decimal rendering of the scaled value, as %.2f produces it. -/
def fmt2 (n u : Nat) : String :=
  let c := cent n u
  Nat.repr (c / 100) ++ "." ++ (if c % 100 < 10 then "0" else "") ++
    Nat.repr (c % 100)

/-- Embedding of bytesfmt (lines 91-104): the two-decimal value and
the selected unit name separated by a space. -/
def bytesfmt (n : Nat) : String :=
  fmt2 n (bytesUnit n) ++ " " ++ (units.getD (bytesUnit n) "")

/-- Embedding of the record construction in init (lines 239 and
253-255): buf is the directory, a slash and the entry name, truncated
by snprintf to 4095 characters; the stored record truncates the entry
name and buf to 2047 characters each (the buffers hold 2048 bytes
including the terminating NUL). -/
def mkExe (dir dname : List Char) (siz : Nat) : Exe :=
  let buf := (dir ++ '/' :: dname).take 4095
  { name := dname.take 2047, path := buf.take 2047, siz := siz }

/-- Concrete record: a file ax. -/
def exAX : Exe := ⟨"ax".data, "/a/ax".data, 1⟩

/-- Concrete record: a file bx. -/
def exBX : Exe := ⟨"bx".data, "/b/bx".data, 2⟩

/-- Concrete record: a file x. -/
def exX : Exe := ⟨"x".data, "/c/x".data, 3⟩

/-- Concrete record: a file ab. -/
def exAB : Exe := ⟨"ab".data, "/p/ab".data, 1⟩

/-! Helper lemmas about the string scan. -/

lemma isPre_iff (s h : List Char) : isPre s h = true ↔ s <+: h := by
  induction s generalizing h with
  | nil => simp [isPre, List.nil_prefix]
  | cons a as ih =>
    cases h with
    | nil => simp [isPre, List.prefix_nil]
    | cons b bs =>
      by_cases hab : a = b
      · subst hab
        simp [isPre, List.cons_prefix_cons, ih]
      · simp [isPre, hab, List.cons_prefix_cons]

lemma strstrB_iff (h s : List Char) : strstrB h s = true ↔ s <:+: h := by
  induction h with
  | nil =>
    cases s with
    | nil => simp [strstrB, isPre]
    | cons c cs => simp [strstrB, isPre, List.infix_nil]
  | cons c t ih =>
    rw [strstrB]
    by_cases hp : isPre s (c :: t) = true
    · simp [hp, List.infix_cons_iff, (isPre_iff s (c :: t)).mp hp]
    · have hnp : ¬ s <+: (c :: t) := fun hpre => hp ((isPre_iff s (c :: t)).mpr hpre)
      simp only [hp, if_false]
      rw [List.infix_cons_iff]
      simp [ih, hnp]

lemma strstrB_refl (x : List Char) : strstrB x x = true :=
  (strstrB_iff x x).mpr (List.infix_refl x)

lemma strstrB_nil (h : List Char) : strstrB h [] = true :=
  (strstrB_iff h []).mpr List.nil_infix

lemma name_ne_of_strstrB_false {h s : List Char} (hf : strstrB h s = false) :
    h ≠ s := by
  intro he
  subst he
  rw [strstrB_refl] at hf
  cases hf

/-! Helper lemmas about the match count. -/

lemma foldr_sub (q : List Char) (l : List Exe) (init : Nat) :
    l.foldr (fun e acc => if strstrB e.name q then acc else acc - 1) init
      = init - (l.filter fun e => ! strstrB e.name q).length := by
  induction l with
  | nil => simp
  | cons a l ih =>
    by_cases hp : strstrB a.name q = true
    · simp [List.foldr_cons, hp, ih, List.filter_cons]
    · rw [Bool.not_eq_true] at hp
      simp [List.foldr_cons, hp, ih, List.filter_cons]
      omega

lemma filter_length_split (l : List Exe) (p : Exe → Bool) :
    (l.filter p).length + (l.filter fun e => ! p e).length = l.length := by
  induction l with
  | nil => simp
  | cons a l ih =>
    by_cases hp : p a = true
    · simp [List.filter_cons, hp]; omega
    · rw [Bool.not_eq_true] at hp
      simp [List.filter_cons, hp]; omega

lemma searchSum_eq (ev : List Exe) (q : List Char) :
    searchSum ev q = (ev.filter fun e => strstrB e.name q).length := by
  rw [searchSum, foldr_sub]
  have h := filter_length_split ev (fun e => strstrB e.name q)
  omega

/-- C5: the matchCount the filter/selection engine computes (the first
loop of search, embedded as searchSum and returned as the first
component of search) equals the number of records whose name contains
the query as a case-sensitive, non-anchored substring, and for the
empty query it equals the total number of records. -/
theorem searchSum_counts_substring_matches (ev : List Exe) (q : List Char) :
    searchSum ev q = (ev.filter fun e => decide (q <:+: e.name)).length ∧
      searchSum ev [] = ev.length := by
  constructor
  · rw [searchSum_eq]
    have hc : ∀ e ∈ ev, (strstrB e.name q) = (decide (q <:+: e.name)) := by
      intro e _
      by_cases hq : q <:+: e.name
      · rw [(strstrB_iff e.name q).mpr hq, decide_eq_true hq]
      · have h1 : strstrB e.name q = false := by
          cases hb : strstrB e.name q
          · rfl
          · exact absurd ((strstrB_iff e.name q).mp hb) hq
        rw [h1, decide_eq_false hq]
    rw [List.filter_congr hc]
  · rw [searchSum_eq]
    have : ev.filter (fun e => strstrB e.name []) = ev :=
      List.filter_eq_self.mpr (fun e _ => strstrB_nil e.name)
    rw [this]

/-! Helper lemmas about the selection loop. -/

lemma searchLoop_no_match {ev : List Exe} {q : List Char}
    (h : ∀ e ∈ ev, strstrB e.name q = false) (np : Nat) :
    ∀ fuel n fi s last, searchLoop q np fuel ev last n fi s = some (ev, last) := by
  intro fuel
  induction fuel with
  | zero => intro n fi s last; rfl
  | succ fuel ih =>
    intro n fi s last
    rw [searchLoop]
    by_cases hc : n < ev.length ∧ fi ≤ np
    · rw [dif_pos hc]
      have hmem := List.get_mem ev n hc.1
      have hf := h _ hmem
      have hne : (ev.get ⟨n, hc.1⟩).name ≠ q := name_ne_of_strstrB_false hf
      simp only [hne, if_false, hf, Bool.false_eq_true]
      exact ih (n + 1) fi s last
    · rw [dif_neg hc]

/-- C9: a query that matches zero records yields matchCount = 0 and
leaves the previously established selection unchanged: the engine
returns the record array and the selection reference exactly as they
were. -/
theorem no_match_preserves_selection (ev : List Exe) (q : List Char)
    (last : Option Nat) (np : Nat)
    (h : ∀ e ∈ ev, strstrB e.name q = false) :
    search ev q last np = some (0, ev, last) := by
  rw [search, searchLoop_no_match h]
  have h0 : searchSum ev q = 0 := by
    rw [searchSum_eq]
    have : ev.filter (fun e => strstrB e.name q) = [] := by
      rw [List.filter_eq_nil_iff]
      intro a ha
      rw [h a ha]
      simp
    rw [this, List.length_nil]
  rw [h0]

lemma set_get_self (l : List Exe) (m : Nat) (h : m < l.length) :
    l.set m (l.get ⟨m, h⟩) = l := by
  apply List.ext_getElem (by simp)
  intro i h1 h2
  rw [List.getElem_set]
  by_cases hmi : m = i
  · subst hmi
    simp [List.get_eq_getElem]
  · rw [if_neg hmi]

/-- Once an exact match has set the s flag, the loop never repoints or
writes again (apart from a harmless self-assignment when the slot the
selection points at itself carries the query as name), so it finishes
with the array and the selection it was given. -/
lemma searchLoop_post_exact {q : List Char} {np : Nat} :
    ∀ fuel (ev : List Exe) (m n fi : Nat), ev.length ≤ fuel + n →
      m < ev.length →
      (∀ k (hk : k < ev.length), n ≤ k → (ev.get ⟨k, hk⟩).name = q → k = m) →
      searchLoop q np fuel ev (some m) n fi true = some (ev, some m) := by
  intro fuel
  induction fuel with
  | zero => intro ev m n fi hlen hm hexact; rfl
  | succ fuel ih =>
    intro ev m n fi hlen hm hexact
    rw [searchLoop]
    by_cases hc : n < ev.length ∧ fi ≤ np
    · rw [dif_pos hc]
      by_cases hname : (ev.get ⟨n, hc.1⟩).name = q
      · have hnm : n = m := hexact n hc.1 (le_refl n) hname
        rw [if_pos hname]
        subst hnm
        show searchLoop q np fuel (ev.set n (ev.get ⟨n, hc.1⟩)) (some n)
          (n + 1) (fi + 1) true = some (ev, some n)
        rw [set_get_self]
        exact ih ev n (n + 1) (fi + 1) (by omega) hm
          (fun k hk hk2 hkn => hexact k hk (by omega) hkn)
      · rw [if_neg hname]
        by_cases hss : strstrB (ev.get ⟨n, hc.1⟩).name q = true
        · rw [if_pos hss]
          exact ih ev m (n + 1) (fi + 1) (by omega) hm
            (fun k hk hk2 hkn => hexact k hk (by omega) hkn)
        · rw [if_neg hss]
          exact ih ev m (n + 1) fi (by omega) hm
            (fun k hk hk2 hkn => hexact k hk (by omega) hkn)
    · rw [dif_neg hc]

/-- Processing an exact match copies the current record over the slot
the selection points at and freezes the selection there for the rest
of the traversal, provided no later record (other than that slot)
also carries the query as its name. -/
lemma searchLoop_exact_step {q : List Char} {np : Nat}
    (fuel : Nat) (ev : List Exe) (m n fi : Nat) (s : Bool)
    (hlen : ev.length ≤ fuel + n) (hn : n < ev.length) (hfi : fi ≤ np)
    (hname : (ev.get ⟨n, hn⟩).name = q) (hm : m < ev.length)
    (hothers : ∀ k (hk : k < ev.length), n < k → k ≠ m →
      (ev.get ⟨k, hk⟩).name ≠ q) :
    searchLoop q np fuel ev (some m) n fi s
      = some (ev.set m (ev.get ⟨n, hn⟩), some m) := by
  cases fuel with
  | zero => exact absurd hlen (by omega)
  | succ fuel =>
    rw [searchLoop, dif_pos ⟨hn, hfi⟩, if_pos hname]
    apply searchLoop_post_exact fuel _ m (n + 1) (fi + 1)
    · rw [List.length_set]; omega
    · rw [List.length_set]; exact hm
    · intro k hk hk2 hkname
      by_cases hkm : k = m
      · exact hkm
      · exfalso
        have hk3 : k < ev.length := by rw [List.length_set] at hk; exact hk
        have hgk : (ev.set m (ev.get ⟨n, hn⟩)).get ⟨k, hk⟩ = ev.get ⟨k, hk3⟩ := by
          simp only [List.get_eq_getElem, List.getElem_set]
          rw [if_neg (fun hmk => hkm hmk.symm)]
        rw [hgk] at hkname
        exact hothers k hk3 (by omega) hkm hkname

/-- C4: when the traversal reaches a record at index n whose name
exactly equals the query while the selection reference points at a
different slot m, the stored record at slot m is overwritten in place
with record n's contents through the aliasing reference; after the
search slot m holds record n's former name, path and size, and every
slot other than m is unchanged (assuming no later record off slot m
also carries the query as its name, which would overwrite slot m
again). -/
theorem exact_match_overwrites_selected_slot
    (q : List Char) (np fuel : Nat) (ev : List Exe) (m n fi : Nat) (s : Bool)
    (hlen : ev.length ≤ fuel + n) (hn : n < ev.length) (hfi : fi ≤ np)
    (hname : (ev.get ⟨n, hn⟩).name = q) (hm : m < ev.length) (hmn : m ≠ n)
    (hothers : ∀ k (hk : k < ev.length), n < k → k ≠ m →
      (ev.get ⟨k, hk⟩).name ≠ q) :
    searchLoop q np fuel ev (some m) n fi s
        = some (ev.set m (ev.get ⟨n, hn⟩), some m) ∧
      (ev.set m (ev.get ⟨n, hn⟩))[m]? = some (ev.get ⟨n, hn⟩) ∧
      ∀ k, k ≠ m → (ev.set m (ev.get ⟨n, hn⟩))[k]? = ev[k]? :=
  ⟨searchLoop_exact_step fuel ev m n fi s hlen hn hfi hname hm hothers,
   List.getElem?_set_self hm,
   fun k hk => List.getElem?_set_ne (fun hmk => hk hmk.symm)⟩

/-- Witness for C4: a two-record index where the second record exactly
matches the query while the selection points at the first slot. -/
theorem exact_match_overwrites_selected_slot_witness :
    ([Exe.mk "ab".data "/p/ab".data 1, Exe.mk "x".data "/c/x".data 3].length
        ≤ 1 + 1) ∧
      searchLoop "x".data 30 1
          [Exe.mk "ab".data "/p/ab".data 1, Exe.mk "x".data "/c/x".data 3]
          (some 0) 1 1 false
        = some ([Exe.mk "x".data "/c/x".data 3, Exe.mk "x".data "/c/x".data 3],
            some 0) := by
  refine ⟨by decide, ?_⟩
  have h := (exact_match_overwrites_selected_slot "x".data 30 1
    [Exe.mk "ab".data "/p/ab".data 1, Exe.mk "x".data "/c/x".data 3]
    0 1 1 false (by decide) (by decide) (by decide) (by decide) (by decide)
    (by decide) (by decide)).1
  rw [h]
  decide

/-- Witness for C9 at a concrete index, selection and query. -/
theorem no_match_preserves_selection_witness :
    (∀ e ∈ [Exe.mk "foo".data "/b/foo".data 7], strstrB e.name "zz".data = false) ∧
      search [Exe.mk "foo".data "/b/foo".data 7] "zz".data (some 0) 30
        = some (0, [Exe.mk "foo".data "/b/foo".data 7], some 0) :=
  ⟨by decide,
   no_match_preserves_selection [Exe.mk "foo".data "/b/foo".data 7] "zz".data
     (some 0) 30 (by decide)⟩

/-- Walking the records that precede the unique exact match, each
substring match repoints the selection; once the exact match is
reached it overwrites the slot the selection then points at and the
loop finishes with the selection frozen on that slot.  The cap
hypothesis says the budget of renderable matches is not exhausted
before index j. -/
lemma searchLoop_pre_exact (q : List Char) (np : Nat) :
    ∀ fuel (ev : List Exe) (m n fi j : Nat) (hj : j < ev.length),
      ev.length ≤ fuel + n → m < ev.length → n ≤ j →
      (ev.get ⟨j, hj⟩).name = q →
      (∀ k (hk : k < ev.length), k ≠ j → (ev.get ⟨k, hk⟩).name ≠ q) →
      fi + (((ev.take j).drop n).filter fun e => strstrB e.name q).length ≤ np →
      ∃ m2, m2 < ev.length ∧
        searchLoop q np fuel ev (some m) n fi false
          = some (ev.set m2 (ev.get ⟨j, hj⟩), some m2) := by
  intro fuel
  induction fuel with
  | zero =>
    intro ev m n fi j hj hlen hm hnj hjname huniq hcap
    exfalso
    omega
  | succ fuel ih =>
    intro ev m n fi j hj hlen hm hnj hjname huniq hcap
    by_cases hnj2 : n = j
    · subst hnj2
      exact ⟨m, hm, searchLoop_exact_step (fuel + 1) ev m n fi false hlen hj
        (by omega) hjname hm (fun k hk h1 h2 => huniq k hk (by omega))⟩
    · have hn : n < ev.length := by omega
      have hname : (ev.get ⟨n, hn⟩).name ≠ q := huniq n hn (by omega)
      have hfi : fi ≤ np := by omega
      have hlt : n < (ev.take j).length := by
        simp [List.length_take]
        omega
      have hdrop : (ev.take j).drop n
          = ev.get ⟨n, hn⟩ :: (ev.take j).drop (n + 1) := by
        rw [List.drop_eq_getElem_cons hlt]
        congr 1
        rw [List.getElem_take]
        simp [List.get_eq_getElem]
      rw [searchLoop, dif_pos ⟨hn, hfi⟩, if_neg hname]
      by_cases hss : strstrB (ev.get ⟨n, hn⟩).name q = true
      · rw [if_pos hss]
        have hcap2 : fi + 1
            + (((ev.take j).drop (n + 1)).filter
                fun e => strstrB e.name q).length ≤ np := by
          rw [hdrop, List.filter_cons] at hcap
          simp only [hss, if_true, List.length_cons] at hcap
          omega
        obtain ⟨m2, hm2, heq⟩ := ih ev n (n + 1) (fi + 1) j hj (by omega) hn
          (by omega) hjname huniq hcap2
        exact ⟨m2, hm2, heq⟩
      · rw [if_neg hss]
        have hcap2 : fi
            + (((ev.take j).drop (n + 1)).filter
                fun e => strstrB e.name q).length ≤ np := by
          rw [hdrop, List.filter_cons] at hcap
          simp only [hss, Bool.false_eq_true, if_false] at hcap
          exact hcap
        exact ih ev m (n + 1) fi j hj (by omega) hm (by omega) hjname huniq hcap2

/-- C1 (amended): if the query exactly equals the name of exactly one
record, at index j, a selection is already established, and strictly
fewer than nprompt records among the first j contain the query as a
substring (so the display cap does not stop the traversal before
index j), then the selection after the run points at a slot holding
record j's contents: its path and size are record j's. -/
theorem exact_match_selected_within_cap (ev : List Exe) (q : List Char)
    (m np j : Nat) (hj : j < ev.length) (hm : m < ev.length)
    (hjname : (ev.get ⟨j, hj⟩).name = q)
    (huniq : ∀ k (hk : k < ev.length), k ≠ j → (ev.get ⟨k, hk⟩).name ≠ q)
    (hcap : ((ev.take j).filter fun e => strstrB e.name q).length < np) :
    ∃ m2, m2 < ev.length ∧
      search ev q (some m) np
        = some (searchSum ev q, ev.set m2 (ev.get ⟨j, hj⟩), some m2) ∧
      (ev.set m2 (ev.get ⟨j, hj⟩))[m2]? = some (ev.get ⟨j, hj⟩) := by
  obtain ⟨m2, hm2, heq⟩ := searchLoop_pre_exact q np ev.length ev m 0 1 j hj
    (by omega) hm (Nat.zero_le j) hjname huniq (by rw [List.drop_zero]; omega)
  exact ⟨m2, hm2, by rw [search, heq], List.getElem?_set_self hm2⟩

/-- Witness for C1 (amended) on a two-record index whose second record
exactly matches the query while the first is a substring match. -/
theorem exact_match_selected_within_cap_witness :
    ∃ m2, m2 < ([exAX, exX] : List Exe).length ∧
      search [exAX, exX] "x".data (some 0) 30
        = some (searchSum [exAX, exX] "x".data,
            [exAX, exX].set m2 (([exAX, exX] : List Exe).get ⟨1, by decide⟩),
            some m2) ∧
      ([exAX, exX].set m2
        (([exAX, exX] : List Exe).get ⟨1, by decide⟩))[m2]?
        = some (([exAX, exX] : List Exe).get ⟨1, by decide⟩) :=
  exact_match_selected_within_cap [exAX, exX] "x".data 0 30 1 (by decide)
    (by decide) (by decide) (by decide) (by decide)

/-- Counterexample to C1 as stated: with display cap nprompt = 1 and
two substring matches preceding the exact-match record in index
order, the traversal stops before reaching the exact match, so the
selection keeps pointing at the first record, whose path and size
differ from those of the exactly matching record. -/
theorem exact_match_beyond_cap_not_selected :
    search [exAX, exBX, exX] "x".data (some 0) 1
        = some (3, [exAX, exBX, exX], some 0) ∧
      exX.name = "x".data ∧ exAX.path ≠ exX.path ∧ exAX.siz ≠ exX.siz := by
  decide

/-- With no record named exactly like the query, the selection loop
never writes through the selection reference and finishes on the
index lastMatchFrom computes: the last substring match it could
process within the render budget. -/
lemma searchLoop_no_exact {ev : List Exe} {q : List Char} {np : Nat}
    (hne : ∀ e ∈ ev, e.name ≠ q) :
    ∀ fuel n fi last, searchLoop q np fuel ev last n fi false
      = some (ev, lastMatchFrom ev q fuel n (np + 1 - fi) last) := by
  intro fuel
  induction fuel with
  | zero => intro n fi last; rfl
  | succ fuel ih =>
    intro n fi last
    rw [searchLoop, lastMatchFrom]
    by_cases hc : n < ev.length ∧ fi ≤ np
    · have hb : (0 : Nat) < np + 1 - fi := by omega
      rw [dif_pos hc, dif_pos ⟨hc.1, hb⟩,
        if_neg (hne _ (List.get_mem ev n hc.1))]
      by_cases hss : strstrB (ev.get ⟨n, hc.1⟩).name q = true
      · rw [if_pos hss, if_pos hss]
        have harith : np + 1 - fi - 1 = np + 1 - (fi + 1) := by omega
        rw [harith]
        exact ih (n + 1) (fi + 1) (some n)
      · rw [if_neg hss, if_neg hss]
        exact ih (n + 1) fi last
    · have hc2 : ¬(n < ev.length ∧ (0 : Nat) < np + 1 - fi) := by
        intro h2
        exact hc ⟨h2.1, by omega⟩
      rw [dif_neg hc, dif_neg hc2]

/-- C2 (amended): absent an exact-name match the engine repoints the
selection at every substring match it processes, so after the run the
selection is the LAST record among the first min(nprompt, matchCount)
substring matches in index order (lastMatch), not the first; when
there is no match at all the incoming selection is kept. -/
theorem selection_last_substring_match (ev : List Exe) (q : List Char)
    (last : Option Nat) (np : Nat) (hne : ∀ e ∈ ev, e.name ≠ q) :
    search ev q last np = some (searchSum ev q, ev, lastMatch ev q np last) := by
  rw [search, searchLoop_no_exact hne ev.length 0 1 last, lastMatch,
    Nat.add_sub_cancel]

/-- Witness for C2 (amended) on a two-record index where both records
contain the query but neither equals it. -/
theorem selection_last_substring_match_witness :
    (∀ e ∈ ([exAX, exBX] : List Exe), e.name ≠ "x".data) ∧
      search [exAX, exBX] "x".data none 30
        = some (searchSum [exAX, exBX] "x".data, [exAX, exBX],
            lastMatch [exAX, exBX] "x".data 30 none) :=
  ⟨by decide,
   selection_last_substring_match [exAX, exBX] "x".data none 30 (by decide)⟩

/-- Counterexample to C2 as stated: the first record (index 0)
contains the query as a substring, yet the selection after the run is
index 1, the later substring match - the first match does not remain
selected. -/
theorem selection_not_first_substring_match :
    search [exAX, exBX] "x".data none 30 = some (2, [exAX, exBX], some 1) ∧
      strstrB exAX.name "x".data = true := by
  decide

/-- C3: evaluation of the engine at the failing input the claim rules
out.  With no selection established yet (the reference is none, the C
global last still NULL) and a first matching record whose name
exactly equals the query, the exact-match assignment writes through
the null reference: the embedded engine reports the failure (none)
where the C code dereferences NULL. -/
theorem search_null_selection_exact_match_fails :
    search [exX] "x".data none 30 = none := by
  decide

/-! Helper lemmas about the tokenizer, the path cap, the formatter and
the record constructor. -/

lemma tokAux_flatten (d : Char) :
    ∀ (s cur : List Char),
      (tokAux d s cur).flatten = cur.reverse ++ s.filter (fun c => !(c == d)) := by
  intro s
  induction s with
  | nil =>
    intro cur
    by_cases hcur : cur = []
    · simp [tokAux, hcur]
    · simp [tokAux, hcur]
  | cons c rest ih =>
    intro cur
    by_cases hcd : c = d
    · subst hcd
      by_cases hcur : cur = []
      · simp [tokAux, hcur, ih]
      · simp [tokAux, hcur, ih, List.flatten_cons]
    · have hbd : (c == d) = false := by
        simp [hcd]
      simp only [tokAux, if_neg hcd, ih (c :: cur), List.reverse_cons,
        List.filter_cons, hbd, Bool.not_false, if_true]
      simp

lemma tokAux_tokens (d : Char) :
    ∀ (s cur : List Char), (∀ c ∈ cur, c ≠ d) →
      ∀ t ∈ tokAux d s cur, t ≠ [] ∧ ∀ c ∈ t, c ≠ d := by
  intro s
  induction s with
  | nil =>
    intro cur hcur t ht
    by_cases hc : cur = []
    · simp [tokAux, hc] at ht
    · simp [tokAux, hc] at ht
      subst ht
      refine ⟨by simp [List.reverse_eq_nil_iff, hc], ?_⟩
      intro c hcm
      exact hcur c (List.mem_reverse.mp hcm)
  | cons c rest ih =>
    intro cur hcur t ht
    by_cases hcd : c = d
    · subst hcd
      by_cases hc : cur = []
      · rw [tokAux, if_pos rfl, if_pos hc] at ht
        exact ih [] (by simp) t ht
      · rw [tokAux, if_pos rfl, if_neg hc] at ht
        cases ht with
        | head =>
          refine ⟨by simp [List.reverse_eq_nil_iff, hc], ?_⟩
          intro a ham
          exact hcur a (List.mem_reverse.mp ham)
        | tail _ ht2 => exact ih [] (by simp) t ht2
    · rw [tokAux, if_neg hcd] at ht
      refine ih (c :: cur) ?_ t ht
      intro a ham
      cases ham with
      | head => exact hcd
      | tail _ ham2 => exact hcur a ham2

/-- C6 (amended): the resolver splits on the delimiter but strtok
discards empty segments instead of preserving them: every produced
token is nonempty and delimiter-free, and the tokens concatenate back
to the input with all delimiter occurrences removed (so consecutive,
leading and trailing delimiters yield no empty entries). -/
theorem parsepath_splits_dropping_empty_segments (s : List Char) :
    (∀ t ∈ strtokAll ':' s, t ≠ [] ∧ ∀ c ∈ t, c ≠ ':') ∧
      (strtokAll ':' s).flatten = s.filter (fun c => !(c == ':')) := by
  constructor
  · exact tokAux_tokens ':' s [] (by simp)
  · rw [strtokAll, tokAux_flatten]
    simp

/-- Witness for C6 (amended) on the input with a doubled delimiter. -/
theorem parsepath_splits_dropping_empty_segments_witness :
    (['a'] ≠ ([] : List Char) ∧ ∀ c ∈ ['a'], c ≠ ':') ∧
      (strtokAll ':' "a::b".data).flatten
        = "a::b".data.filter (fun c => !(c == ':')) :=
  ⟨(parsepath_splits_dropping_empty_segments "a::b".data).1 ['a'] (by decide),
   (parsepath_splits_dropping_empty_segments "a::b".data).2⟩

/-- Counterexample to C6 as stated: splitting the value a::b yields
the two entries a and b; no empty-string entry appears at position 1
(the claim expects the empty segment between the two delimiters to be
preserved there). -/
theorem parsepath_empty_segment_counterexample :
    parsepath 0 "a::b".data = [['a'], ['b']] ∧
      (parsepath 0 "a::b".data)[1]? ≠ some [] := by
  decide

lemma parsepathTokens_le :
    ∀ (toks : List (List Char)) (psiz : Nat), psiz < 512 →
      psiz + (parsepathTokens psiz toks).length ≤ 512 := by
  intro toks
  induction toks with
  | nil =>
    intro psiz h
    rw [parsepathTokens]
    simp
    omega
  | cons t rest ih =>
    intro psiz h
    rw [parsepathTokens]
    by_cases hb : psiz + 1 ≥ 512
    · rw [if_pos hb]
      simp
      omega
    · rw [if_neg hb]
      have h2 := ih (psiz + 1) (by omega)
      simp only [List.length_cons]
      omega

/-- C7 (amended): exceeding the 512-path cap is fatal only through
the explicit argument count: more than 512 explicit paths terminate
the program, while with at most 511 explicit paths the environment
entries are appended only until the total reaches 512 and the rest
are silently dropped, so the setup always succeeds with a final count
of at most 512 - an overlong environment list is truncated, not
fatal. -/
theorem path_overflow_fatal_only_for_args (nargs : Nat) (env : List Char)
    (P : Bool) :
    (512 < nargs → mainPaths nargs env P = Except.error ()) ∧
      (nargs ≤ 511 → ∃ k, mainPaths nargs env P = Except.ok k ∧ k ≤ 512) := by
  constructor
  · intro hlt
    rw [mainPaths]
    by_cases hcond : (decide (nargs = 0) || P) = true
    · rw [if_pos hcond, if_pos (by omega)]
    · rw [if_neg hcond, if_pos (by omega)]
  · intro hle
    rw [mainPaths]
    by_cases hcond : (decide (nargs = 0) || P) = true
    · have hcap := parsepathTokens_le (strtokAll ':' env) nargs (by omega)
      rw [if_pos hcond, if_neg (by rw [parsepath]; omega)]
      exact ⟨_, rfl, by rw [parsepath]; omega⟩
    · rw [if_neg hcond, if_neg (by omega)]
      exact ⟨nargs, rfl, by omega⟩

/-- Witness for C7 (amended): 513 explicit paths are fatal; no
explicit paths with a one-entry environment succeed within the cap. -/
theorem path_overflow_fatal_only_for_args_witness :
    (512 < 513 ∧ mainPaths 513 [] false = Except.error ()) ∧
      (0 ≤ 511 ∧ ∃ k, mainPaths 0 "a".data false = Except.ok k ∧ k ≤ 512) :=
  ⟨⟨by decide, (path_overflow_fatal_only_for_args 513 [] false).1 (by decide)⟩,
   ⟨by decide,
    (path_overflow_fatal_only_for_args 0 "a".data false).2 (by decide)⟩⟩

/-- Counterexample to C7 as stated: 511 explicit paths plus a
three-entry environment list under the P flag would make 514 combined
paths, beyond the 512 cap, yet the setup succeeds with the count
silently truncated to 512 instead of terminating fatally. -/
theorem env_paths_truncated_not_fatal :
    mainPaths 511 "a:b:c".data true = Except.ok 512 ∧
      512 < 511 + (strtokAll ':' "a:b:c".data).length :=
  ⟨rfl, by decide⟩

lemma bytesUnitAux_eq :
    ∀ (k u n : Nat), 1024 ^ (u + k) ≤ n → bytesUnitAux n k u = u + k := by
  intro k
  induction k with
  | zero =>
    intro u n h
    simp [bytesUnitAux]
  | succ k ih =>
    intro u n h
    rw [bytesUnitAux, if_pos ?h1]
    case h1 =>
      refine le_trans (Nat.pow_le_pow_right (by norm_num) (by omega)) h
    have h2 := ih (u + 1) n (by
      have : u + 1 + k = u + (k + 1) := by omega
      rw [this]
      exact h)
    omega

/-- C8: the byte-size formatter produces 0.00 B for 0 bytes, 1.00 KiB
for 1024, 1.50 KiB for 1536 and 1.00 EiB for 1024^6, and in general
it divides by 1024 while the value is at least 1024 and the unit
index is below 6, so every value of at least 1024^6 is reported in
EiB, the unit ceiling. -/
theorem bytesfmt_values :
    bytesfmt 0 = "0.00 B" ∧ bytesfmt 1024 = "1.00 KiB" ∧
      bytesfmt 1536 = "1.50 KiB" ∧ bytesfmt (1024 ^ 6) = "1.00 EiB" ∧
      ∀ n, 1024 ^ 6 ≤ n → bytesUnit n = 6 := by
  refine ⟨by decide, by decide, by decide, by decide, ?_⟩
  intro n h
  have h2 := bytesUnitAux_eq 6 0 n (by simpa using h)
  simpa [bytesUnit] using h2

/-- Witness for C8 at a value beyond the unit ceiling. -/
theorem bytesfmt_values_witness :
    1024 ^ 6 ≤ 2 ^ 61 ∧ bytesUnit (2 ^ 61) = 6 :=
  ⟨by norm_num, bytesfmt_values.2.2.2.2 (2 ^ 61) (by norm_num)⟩

/-- C10: every constructed record stores a name of at most 2047
characters and a path of at most 2047 characters; the stored name is
the entry name truncated to 2047 characters (truncation, not
rejection), so an entry name longer than that bound is stored
differing from the on-disk name - and the engine matches against the
stored, truncated name. -/
theorem mkExe_truncates (dir dname : List Char) (siz : Nat) :
    (mkExe dir dname siz).name.length ≤ 2047 ∧
      (mkExe dir dname siz).path.length ≤ 2047 ∧
      (mkExe dir dname siz).name = dname.take 2047 ∧
      (2047 < dname.length → (mkExe dir dname siz).name ≠ dname) := by
  refine ⟨?_, ?_, rfl, ?_⟩
  · show (dname.take 2047).length ≤ 2047
    rw [List.length_take]
    omega
  · show (((dir ++ '/' :: dname).take 4095).take 2047).length ≤ 2047
    rw [List.length_take]
    omega
  · intro h heq
    have hl := congrArg List.length heq
    rw [show (mkExe dir dname siz).name = dname.take 2047 from rfl,
      List.length_take] at hl
    omega

/-- Witness for C10 on a 2048-character entry name. -/
theorem mkExe_truncates_witness :
    2047 < (List.replicate 2048 'a').length ∧
      (mkExe [] (List.replicate 2048 'a') 0).name ≠ List.replicate 2048 'a' :=
  ⟨by rw [List.length_replicate]; omega,
   (mkExe_truncates [] (List.replicate 2048 'a') 0).2.2.2
     (by rw [List.length_replicate]; omega)⟩

end Aelist
